import Mathlib

/-!
Verification development for the minilzo-rs crate: an LZO1X-style
byte-oriented compressor, two decompressors (an unchecked one and a
bounds-checked safe one), an adler32 checksum, and the error-code mapping
of the Rust binding layer.

The Rust binding (`src/lib.rs`) is embedded directly.  The C codec that
the binding links against (`minilzo.c`) is not part of the crate's `src/`
tree, so its compressor, decompressors and checksum are modelled from the
specification: a greedy single-pass LZ77 compressor over a hash table of
candidate positions emitting a stream of op-codes (literal runs, two
match classes with (distance, length) pairs, and a designated end-of-stream
marker), and a decoder state machine that replays the stream, with the safe
variant checking every read and write against the declared lengths.
Byte buffers are `List Nat`; bytes are values below 256, maintained by
construction where it matters (op-codes and distance bytes).
-/

namespace MiniLZO

/-- Error taxonomy of the binding, from `src/lib.rs` lines 23-38 (the
`Error` enum): one variant per kind, in source order. -/
inductive Error where
  | Error
  | OutOfMemory
  | NotCompressible
  | InputOverrun
  | OutputOverrun
  | LookbehindOverrun
  | EOFNotFound
  | InputNotConsumed
  | NotYetImplemented
  | InvalidArgument
  | InvalidAlignment
  | OutputNotConsumed
  | InternalError
deriving DecidableEq, Repr

/-- Mapping from the C library's numeric return codes to the public error
enumeration, from `src/lib.rs` lines 66-85 (`lzo_err_code_to_result`):
code 0 is success; each listed negative code selects a variant (note the
source maps both -10 and -11 to `InvalidArgument`); unknown codes fall
through to `Error.Error`. -/
def lzo_err_code_to_result {T : Type} (code : Int) (value : T) : Except Error T :=
  if code = 0 then .ok value
  else if code = -1 then .error .Error
  else if code = -2 then .error .OutOfMemory
  else if code = -3 then .error .NotCompressible
  else if code = -4 then .error .InputOverrun
  else if code = -5 then .error .OutputOverrun
  else if code = -6 then .error .LookbehindOverrun
  else if code = -7 then .error .EOFNotFound
  else if code = -8 then .error .InputNotConsumed
  else if code = -9 then .error .NotYetImplemented
  else if code = -10 then .error .InvalidArgument
  else if code = -11 then .error .InvalidArgument
  else if code = -12 then .error .OutputNotConsumed
  else if code = -99 then .error .InternalError
  else .error .Error

/-- Modelled from the spec: `lzo_adler32` from the C codec (not under
`src/`).  Two 16-bit accumulators seeded from the initial value (low and
high half); for each byte the first accumulator adds the byte modulo the
prime 65521 and the second adds the first modulo the same prime; the result
packs the second accumulator into the high 16 bits and the first into the
low 16 bits. -/
def lzo_adler32 (adler : Nat) (buf : List Nat) : Nat :=
  let p := buf.foldl
    (fun (ab : Nat × Nat) c =>
      ((ab.1 + c) % 65521, (ab.2 + (ab.1 + c) % 65521) % 65521))
    (adler % 65536, adler / 65536)
  p.2 * 65536 + p.1

/-- Public checksum, from `src/lib.rs` lines 200-204: calls `lzo_adler32`
with the hard-coded initial value 1 and takes no seed parameter. -/
def adler32 (buf : List Nat) : Nat :=
  lzo_adler32 1 buf

/-- Modelled from the spec: maximum backward distance of a match (the
window, about 48 KiB in the compact encodings). -/
def MAX_DIST : Nat := 49151

/-- Modelled from the spec: the match finder hashes the three bytes at the
current position into a fixed-size table of candidate positions. -/
def hash3 (a b c : Nat) : Nat :=
  ((a * 33 + b) * 33 + c) % 256

/-- Modelled from the spec: forward comparison from a candidate position
and the current position, bounded by the buffer end and by the maximum
match length (the third argument). -/
def commonLen : List Nat → List Nat → Nat → Nat
  | a :: as, b :: bs, fuel + 1 => if a = b then commonLen as bs fuel + 1 else 0
  | _, _, _ => 0

/-- Bytes of `l` from position `a` (inclusive) to `b` (exclusive). -/
def extract (l : List Nat) (a b : Nat) : List Nat :=
  (l.drop a).take (b - a)

/-- Modelled from the spec: serialization of a literal run.  The run is
chunked; each chunk is an op-code byte 1..63 holding the chunk length,
followed by that many raw bytes.  The fuel bounds the number of chunks and
is always instantiated with at least the run length. -/
def emitLits : Nat → List Nat → List Nat
  | _, [] => []
  | 0, _ :: _ => []
  | fuel + 1, b :: t =>
      min (b :: t).length 63 ::
        ((b :: t).take 63 ++ emitLits fuel ((b :: t).drop 63))

/-- Modelled from the spec: short match class, for lengths 3..10 at
distances 1..255: op-code byte 64 + (length - 3) followed by one distance
byte. -/
def emitM2 (d l : Nat) : List Nat :=
  [64 + (l - 3), d]

/-- Modelled from the spec: long match class, for lengths 4..131 at
distances 1..65535: op-code byte 128 + (length - 4) followed by the
distance in two little-endian bytes. -/
def emitM3 (d l : Nat) : List Nat :=
  [128 + (l - 4), d % 256, d / 256]

/-- Modelled from the spec: hash of the three bytes at the current source
position, indexing the scratch table. -/
def srcHash (src : List Nat) (i : Nat) : Nat :=
  hash3 (src.getD i 0) (src.getD (i + 1) 0) (src.getD (i + 2) 0)

/-- Modelled from the spec: last-writer-wins update of the scratch table's
bucket `h` with the position `i`. -/
def updTable (table : Nat → Option Nat) (h i : Nat) : Nat → Option Nat :=
  fun h' => if h' = h then some i else table h'

/-- Modelled from the spec: length of the match between candidate position
`j` and current position `i`, bounded by the buffer end and by the maximum
encodable match length 131. -/
def matchLenAt (src : List Nat) (j i : Nat) : Nat :=
  commonLen (src.drop j) (src.drop i) 131

/-- Modelled from the spec: the greedy single-pass compressor loop.  At
position `i` (with pending literals starting at `litStart`) it hashes the
three bytes at `i`, consults and updates the scratch table
(last-writer-wins), and either emits the pending literal run followed by a
match op-code (advancing past the match) or extends the literal run by one
byte.  A candidate is usable only when it lies strictly before the current
position within the window and matches for at least 3 bytes (at least 4
for the long match class, mirroring the source format's refusal of distant
length-3 matches).  The tail bytes are flushed as literals and the stream
is terminated by the end-of-stream marker byte 0.  The fuel bounds the
number of iterations; exhaustion (which the top-level entry's fuel rules
out) flushes the tail the same way the terminal case does. -/
def compressLoop (src : List Nat) : Nat → Nat → Nat → (Nat → Option Nat) → List Nat
  | 0, _, litStart, _ =>
      emitLits (src.length - litStart) (extract src litStart src.length) ++ [0]
  | fuel + 1, i, litStart, table =>
    if src.length < i + 3 then
      emitLits (src.length - litStart) (extract src litStart src.length) ++ [0]
    else
      match table (srcHash src i) with
      | none => compressLoop src fuel (i + 1) litStart (updTable table (srcHash src i) i)
      | some j =>
        if i ≤ j ∨ MAX_DIST < i - j then
          compressLoop src fuel (i + 1) litStart (updTable table (srcHash src i) i)
        else if 3 ≤ matchLenAt src j i ∧ matchLenAt src j i ≤ 10 ∧ i - j ≤ 255 then
          emitLits (i - litStart) (extract src litStart i) ++
            (emitM2 (i - j) (matchLenAt src j i) ++
              compressLoop src fuel (i + matchLenAt src j i) (i + matchLenAt src j i)
                (updTable table (srcHash src i) i))
        else if 4 ≤ matchLenAt src j i then
          emitLits (i - litStart) (extract src litStart i) ++
            (emitM3 (i - j) (matchLenAt src j i) ++
              compressLoop src fuel (i + matchLenAt src j i) (i + matchLenAt src j i)
                (updTable table (srcHash src i) i))
        else
          compressLoop src fuel (i + 1) litStart (updTable table (srcHash src i) i)

/-- Modelled from the spec: `lzo1x_1_compress` from the C codec (not under
`src/`).  The scratch table is logically empty at the start of each call;
the loop starts at position 0 with no pending literals.  Returns the C
status code (always 0: compression of an in-memory buffer into the
worst-case-sized output cannot fail) and the compressed stream. -/
def lzo1x_1_compress (src : List Nat) : Int × List Nat :=
  (0, compressLoop src (src.length + 1) 0 0 (fun _ => none))

/-- Modelled from the spec: the decoder state machine's state between two
consumed input bytes: expecting an op-code, copying the remaining bytes of
a literal run, or expecting the distance byte(s) of a short or long match
of the recorded length. -/
inductive DState where
  | op
  | lit (n : Nat)
  | m2 (l : Nat)
  | m3lo (l : Nat)
  | m3hi (l : Nat) (lo : Nat)
deriving DecidableEq, Repr

/-- Modelled from the spec: expansion of a match by copying `n` bytes one
at a time from `distance` bytes behind the current end of the output
(overlapping copies reproduce repeated runs byte by byte in order). -/
def copyMatch (out : List Nat) (d : Nat) : Nat → List Nat
  | 0 => out
  | n + 1 => copyMatch (out ++ [out.getD (out.length - d) 0]) d n

/-- Modelled from the spec: the safe decoder state machine, one consumed
input byte per step, every read and write checked.  Returns the C status
code and the bytes produced: 0 on success (end marker consumed as the last
input byte), -8 (input not consumed) when input remains after the end
marker, -7 (EOF not found) when the input ends while an op-code is
expected, -4 (input overrun) when it ends inside a run or match encoding,
-5 (output overrun) when a run or match would write past the declared
output length, -6 (lookbehind overrun) when a match distance is 0 or
reaches before the start of the output. -/
def decodeSafe (dstLen : Nat) : List Nat → DState → List Nat → Int × List Nat
  | [], .op, out => (-7, out)
  | [], _, out => (-4, out)
  | b :: rest, .op, out =>
    if b = 0 then
      if rest = [] then (0, out) else (-8, out)
    else if b ≤ 63 then
      if dstLen < out.length + b then (-5, out)
      else decodeSafe dstLen rest (.lit b) out
    else if b ≤ 127 then
      if dstLen < out.length + (b - 64 + 3) then (-5, out)
      else decodeSafe dstLen rest (.m2 (b - 64 + 3)) out
    else
      if dstLen < out.length + (b - 128 + 4) then (-5, out)
      else decodeSafe dstLen rest (.m3lo (b - 128 + 4)) out
  | b :: rest, .lit n, out =>
    if n ≤ 1 then decodeSafe dstLen rest .op (out ++ [b])
    else decodeSafe dstLen rest (.lit (n - 1)) (out ++ [b])
  | b :: rest, .m2 l, out =>
    if b = 0 ∨ out.length < b then (-6, out)
    else decodeSafe dstLen rest .op (copyMatch out b l)
  | b :: rest, .m3lo l, out => decodeSafe dstLen rest (.m3hi l b) out
  | b :: rest, .m3hi l lo, out =>
    if lo + 256 * b = 0 ∨ out.length < lo + 256 * b then (-6, out)
    else decodeSafe dstLen rest .op (copyMatch out (lo + 256 * b) l)

/-- Modelled from the spec: the unchecked decoder, same state machine as
the safe one but with no bounds checks; situations that the safe decoder
reports (reading past the input, writing past the output, a lookbehind
before the start) are undefined behavior for it and are modelled as the
generic code -1.  Trailing input after the end marker is still reported as
-8, and success still requires the end marker. -/
def decodeFast (dstLen : Nat) : List Nat → DState → List Nat → Int × List Nat
  | [], _, out => (-1, out)
  | b :: rest, .op, out =>
    if b = 0 then
      if rest = [] then (0, out) else (-8, out)
    else if b ≤ 63 then
      if dstLen < out.length + b then (-1, out)
      else decodeFast dstLen rest (.lit b) out
    else if b ≤ 127 then
      if dstLen < out.length + (b - 64 + 3) then (-1, out)
      else decodeFast dstLen rest (.m2 (b - 64 + 3)) out
    else
      if dstLen < out.length + (b - 128 + 4) then (-1, out)
      else decodeFast dstLen rest (.m3lo (b - 128 + 4)) out
  | b :: rest, .lit n, out =>
    if n ≤ 1 then decodeFast dstLen rest .op (out ++ [b])
    else decodeFast dstLen rest (.lit (n - 1)) (out ++ [b])
  | b :: rest, .m2 l, out =>
    if b = 0 ∨ out.length < b then (-1, out)
    else decodeFast dstLen rest .op (copyMatch out b l)
  | b :: rest, .m3lo l, out => decodeFast dstLen rest (.m3hi l b) out
  | b :: rest, .m3hi l lo, out =>
    if lo + 256 * b = 0 ∨ out.length < lo + 256 * b then (-1, out)
    else decodeFast dstLen rest .op (copyMatch out (lo + 256 * b) l)

/-- Modelled from the spec: `lzo1x_decompress_safe` from the C codec (not
under `src/`): runs the checked state machine from an empty output,
returning the status code and the bytes produced. -/
def lzo1x_decompress_safe (src : List Nat) (dstLen : Nat) : Int × List Nat :=
  decodeSafe dstLen src .op []

/-- Modelled from the spec: `lzo1x_decompress` from the C codec (not under
`src/`): the unchecked state machine from an empty output. -/
def lzo1x_decompress (src : List Nat) (dstLen : Nat) : Int × List Nat :=
  decodeFast dstLen src .op []

/-- Post-processing shared by the two Rust decompression wrappers
(`src/lib.rs` lines 153-169 and 172-188): the destination vector is
allocated with `dstLen` zero bytes and the decoder writes `out` into its
prefix; the C call overwrites the aliased `dst_len` local with the produced
length, and the wrapper then resizes the vector only when the call
succeeded and the vector is shorter than that produced length (dead in
practice, since the vector never shrinks). -/
def decompressFixup (code : Int) (out : List Nat) (dstLen : Nat) : List Nat :=
  if code = 0 ∧ (out ++ List.replicate (dstLen - out.length) 0).length < out.length then
    (out ++ List.replicate (dstLen - out.length) 0) ++
      List.replicate (out.length - (out ++ List.replicate (dstLen - out.length) 0).length) 0
  else
    out ++ List.replicate (dstLen - out.length) 0

/-- Modelled from the spec: size in bytes of the compressor's fixed scratch
working memory (`LZO1X_1_MEM_COMPRESS`); the exact value is immaterial
here. -/
def LZO1X_1_MEM_COMPRESS : Nat := 16384 * 8

/-- Modelled from the spec: the platform integer-size self-check performed
once at initialization (`__lzo_init_v2`), which succeeds (code 0) on
supported platforms. -/
def lzo_init_v2 : Int := 0

/-- An LZO instance, from `src/lib.rs` lines 102-104: it owns the scratch
working memory handed to the compressor (uninitialized in the source; its
contents are irrelevant because each compression call starts from a
logically empty table). -/
structure LZO where
  wrkmem : List Nat

/-- Instance construction, from `src/lib.rs` lines 108-115: runs the
platform self-check and on success returns an instance wrapping the
scratch memory. -/
def LZO.init : Except Error LZO :=
  match lzo_err_code_to_result lzo_init_v2 () with
  | .ok _ => .ok ⟨List.replicate LZO1X_1_MEM_COMPRESS 0⟩
  | .error e => .error e

/-- Compression wrapper, from `src/lib.rs` lines 136-150: sizes the output
vector to the worst-case bound, calls the C compressor, truncates to the
produced length and maps the status code. -/
def LZO.compress (_self : LZO) (src : List Nat) : Except Error (List Nat) :=
  lzo_err_code_to_result (lzo1x_1_compress src).1 (lzo1x_1_compress src).2

/-- Unchecked decompression wrapper, from `src/lib.rs` lines 153-169. -/
def LZO.decompress (_self : LZO) (src : List Nat) (dstLen : Nat) :
    Except Error (List Nat) :=
  lzo_err_code_to_result (lzo1x_decompress src dstLen).1
    (decompressFixup (lzo1x_decompress src dstLen).1
      (lzo1x_decompress src dstLen).2 dstLen)

/-- Safe decompression wrapper, from `src/lib.rs` lines 172-188. -/
def LZO.decompress_safe (_self : LZO) (src : List Nat) (dstLen : Nat) :
    Except Error (List Nat) :=
  lzo_err_code_to_result (lzo1x_decompress_safe src dstLen).1
    (decompressFixup (lzo1x_decompress_safe src dstLen).1
      (lzo1x_decompress_safe src dstLen).2 dstLen)

/-- Output still owed to the declared destination length by the decoder in
a given state: pending literal bytes or the promised match length. -/
def stRoom : DState → Nat
  | .op => 0
  | .lit n => max 1 n
  | .m2 l => l
  | .m3lo l => l
  | .m3hi l _ => l

/-! ### List and arithmetic helper lemmas -/

theorem getD_drop (l : List Nat) (a k x : Nat) :
    (l.drop a).getD k x = l.getD (a + k) x := by
  simp [List.getD_eq_getElem?_getD, List.getElem?_drop]

theorem getD_take_lt (l : List Nat) {k n : Nat} (h : k < n) (x : Nat) :
    (l.take n).getD k x = l.getD k x := by
  simp [List.getD_eq_getElem?_getD, List.getElem?_take, h]

theorem take_succ_getD (l : List Nat) {n : Nat} (h : n < l.length) (x : Nat) :
    l.take (n + 1) = l.take n ++ [l.getD n x] := by
  rw [List.take_succ]
  congr 1
  rw [List.getD_eq_getElem?_getD, List.getElem?_eq_getElem h]
  rfl

theorem take_append_extract (l : List Nat) {a b : Nat} (h : a ≤ b) :
    l.take a ++ extract l a b = l.take b := by
  have hb : b = a + (b - a) := by omega
  rw [hb, List.take_add, extract]
  congr 2
  omega

theorem extract_length (l : List Nat) (a b : Nat) :
    (extract l a b).length = min (b - a) (l.length - a) := by
  simp [extract]

theorem div_add_div_le (a b n : Nat) (hn : 0 < n) :
    a / n + b / n ≤ (a + b) / n := by
  rw [Nat.le_div_iff_mul_le hn, Nat.add_mul]
  have ha := Nat.div_mul_le_self a n
  have hb := Nat.div_mul_le_self b n
  omega

/-! ### Lemmas about the match finder's forward comparison -/

theorem commonLen_le_length_right :
    ∀ (xs ys : List Nat) (f : Nat), commonLen xs ys f ≤ ys.length := by
  intro xs
  induction xs with
  | nil => intro ys f; cases ys <;> cases f <;> simp [commonLen]
  | cons a as ih =>
    intro ys f
    cases ys with
    | nil => cases f <;> simp [commonLen]
    | cons b bs =>
      cases f with
      | zero => simp [commonLen]
      | succ f =>
        by_cases hab : a = b
        · simpa [commonLen, hab] using ih bs f
        · simp [commonLen, hab]

theorem commonLen_le_fuel :
    ∀ (f : Nat) (xs ys : List Nat), commonLen xs ys f ≤ f := by
  intro f
  induction f with
  | zero => intro xs ys; cases xs <;> cases ys <;> simp [commonLen]
  | succ f ih =>
    intro xs ys
    cases xs with
    | nil => simp [commonLen]
    | cons a as =>
      cases ys with
      | nil => simp [commonLen]
      | cons b bs =>
        by_cases hab : a = b
        · have := ih as bs
          simp only [commonLen, if_pos hab]
          omega
        · simp [commonLen, hab]

theorem commonLen_getD :
    ∀ (f : Nat) (xs ys : List Nat) (k : Nat), k < commonLen xs ys f →
      ∀ (x : Nat), xs.getD k x = ys.getD k x := by
  intro f
  induction f with
  | zero =>
    intro xs ys k hk
    cases xs <;> cases ys <;> simp [commonLen] at hk
  | succ f ih =>
    intro xs ys k hk x
    cases xs with
    | nil => simp [commonLen] at hk
    | cons a as =>
      cases ys with
      | nil => simp [commonLen] at hk
      | cons b bs =>
        by_cases hab : a = b
        · simp only [commonLen, if_pos hab] at hk
          cases k with
          | zero => simpa using hab
          | succ k =>
            have := ih as bs k (by omega) x
            simpa using this
        · simp [commonLen, hab] at hk

/-! ### Lemmas about match expansion -/

theorem copyMatch_length (d : Nat) :
    ∀ (n : Nat) (out : List Nat), (copyMatch out d n).length = out.length + n := by
  intro n
  induction n with
  | zero => intro out; simp [copyMatch]
  | succ n ih =>
    intro out
    rw [copyMatch, ih]
    simp
    omega

theorem copyMatch_take (src : List Nat) (d : Nat) :
    ∀ (n i : Nat), i + n ≤ src.length → 1 ≤ d → d ≤ i →
      (∀ k, k < n → src.getD (i - d + k) 0 = src.getD (i + k) 0) →
      copyMatch (src.take i) d n = src.take (i + n) := by
  intro n
  induction n with
  | zero => intro i _ _ _ _; simp [copyMatch]
  | succ n ih =>
    intro i hlen hd1 hdi hmatch
    have hi : i < src.length := by omega
    have hlentake : (src.take i).length = i := by
      simp; omega
    have hbyte : (src.take i).getD ((src.take i).length - d) 0 = src.getD i 0 := by
      rw [hlentake, getD_take_lt src (by omega : i - d < i) 0]
      have h0 := hmatch 0 (by omega)
      simpa using h0
    rw [copyMatch, hbyte, ← take_succ_getD src hi 0]
    have step := ih (i + 1) (by omega) hd1 (by omega)
      (fun k hk => by
        have := hmatch (k + 1) (by omega)
        have e1 : i - d + (k + 1) = i + 1 - d + k := by omega
        have e2 : i + (k + 1) = i + 1 + k := by omega
        rw [e1, e2] at this
        exact this)
    rw [step]
    congr 1
    omega

/-! ### Stepping lemmas for the safe decoder -/

theorem decode_lit_chunk (dstLen : Nat) :
    ∀ (chunk : List Nat), chunk ≠ [] → ∀ (rest out : List Nat),
      decodeSafe dstLen (chunk ++ rest) (.lit chunk.length) out =
        decodeSafe dstLen rest .op (out ++ chunk) := by
  intro chunk
  induction chunk with
  | nil => intro h; exact absurd rfl h
  | cons b t ih =>
    intro _ rest out
    cases t with
    | nil => simp [decodeSafe]
    | cons b' t' =>
      have hlen : (b :: b' :: t').length = (b' :: t').length + 1 := by simp
      rw [List.cons_append, hlen, decodeSafe]
      rw [if_neg (by simp : ¬ (b' :: t').length + 1 ≤ 1)]
      have e : (b' :: t').length + 1 - 1 = (b' :: t').length := by omega
      rw [e, ih (by simp) rest (out ++ [b])]
      simp

theorem decode_emitLits (dstLen : Nat) :
    ∀ (f : Nat) (bs rest out : List Nat), bs.length ≤ f →
      out.length + bs.length ≤ dstLen →
      decodeSafe dstLen (emitLits f bs ++ rest) .op out =
        decodeSafe dstLen rest .op (out ++ bs) := by
  intro f
  induction f with
  | zero =>
    intro bs rest out hf _
    have : bs = [] := by
      cases bs with
      | nil => rfl
      | cons b t => simp at hf
    subst this
    simp [emitLits]
  | succ f ih =>
    intro bs rest out hf hroom
    cases bs with
    | nil => simp [emitLits]
    | cons b t =>
      set bs := b :: t with hbs
      have hL : 1 ≤ bs.length := by simp [hbs]
      have hcpos : 1 ≤ min bs.length 63 := by omega
      have hc63 : min bs.length 63 ≤ 63 := by omega
      rw [emitLits, List.cons_append, List.append_assoc, decodeSafe]
      rw [if_neg (by omega : ¬ min bs.length 63 = 0)]
      rw [if_pos hc63]
      rw [if_neg (by omega : ¬ dstLen < out.length + min bs.length 63)]
      have hchunklen : (bs.take 63).length = min bs.length 63 := by
        simp [Nat.min_comm]
      have hchunkne : bs.take 63 ≠ [] := by
        intro hnil
        have h2 := congrArg List.length hnil
        rw [hchunklen] at h2
        simp only [List.length_nil] at h2
        omega
      rw [← hchunklen, decode_lit_chunk dstLen (bs.take 63) hchunkne]
      have hdroplen : (bs.drop 63).length ≤ f := by
        simp
        omega
      have hroom' : (out ++ bs.take 63).length + (bs.drop 63).length ≤ dstLen := by
        simp [hchunklen]
        omega
      rw [ih (bs.drop 63) rest (out ++ bs.take 63) hdroplen hroom']
      rw [List.append_assoc, List.take_append_drop]

theorem decode_emitM2 (dstLen : Nat) (d l : Nat) (rest out : List Nat)
    (hl3 : 3 ≤ l) (hl10 : l ≤ 10) (hd1 : 1 ≤ d) (hdo : d ≤ out.length)
    (hroom : out.length + l ≤ dstLen) :
    decodeSafe dstLen (emitM2 d l ++ rest) .op out =
      decodeSafe dstLen rest .op (copyMatch out d l) := by
  rw [emitM2, List.cons_append, List.cons_append, List.nil_append, decodeSafe]
  rw [if_neg (by omega : ¬ 64 + (l - 3) = 0)]
  rw [if_neg (by omega : ¬ 64 + (l - 3) ≤ 63)]
  rw [if_pos (by omega : 64 + (l - 3) ≤ 127)]
  have e : 64 + (l - 3) - 64 + 3 = l := by omega
  rw [e]
  rw [if_neg (by omega : ¬ dstLen < out.length + l)]
  rw [decodeSafe]
  rw [if_neg (by omega : ¬ (d = 0 ∨ out.length < d))]

theorem decode_emitM3 (dstLen : Nat) (d l : Nat) (rest out : List Nat)
    (hl4 : 4 ≤ l) (hl131 : l ≤ 131) (hd1 : 1 ≤ d) (hd16 : d < 65536)
    (hdo : d ≤ out.length) (hroom : out.length + l ≤ dstLen) :
    decodeSafe dstLen (emitM3 d l ++ rest) .op out =
      decodeSafe dstLen rest .op (copyMatch out d l) := by
  rw [emitM3, List.cons_append, List.cons_append, List.cons_append,
    List.nil_append, decodeSafe]
  rw [if_neg (by omega : ¬ 128 + (l - 4) = 0)]
  rw [if_neg (by omega : ¬ 128 + (l - 4) ≤ 63)]
  rw [if_neg (by omega : ¬ 128 + (l - 4) ≤ 127)]
  have e : 128 + (l - 4) - 128 + 4 = l := by omega
  rw [e]
  rw [if_neg (by omega : ¬ dstLen < out.length + l)]
  rw [decodeSafe, decodeSafe]
  have ed : d % 256 + 256 * (d / 256) = d := Nat.mod_add_div d 256
  rw [ed]
  rw [if_neg (by omega : ¬ (d = 0 ∨ out.length < d))]

theorem decode_end (dstLen : Nat) (out : List Nat) :
    decodeSafe dstLen [0] .op out = (0, out) := by
  simp [decodeSafe]

/-! ### Round-trip: decoding the compressor's output reproduces the source -/

theorem decode_terminal (src : List Nat) (litStart : Nat)
    (h : litStart ≤ src.length) :
    decodeSafe src.length
      (emitLits (src.length - litStart) (extract src litStart src.length) ++ [0])
      .op (src.take litStart) = (0, src) := by
  have hlen : (extract src litStart src.length).length = src.length - litStart := by
    rw [extract_length]
    omega
  have htake : (src.take litStart).length = litStart := by
    simp
    omega
  rw [decode_emitLits src.length (src.length - litStart)
      (extract src litStart src.length) [0] (src.take litStart)
      (by omega) (by omega)]
  rw [take_append_extract src h, List.take_length]
  exact decode_end src.length src

theorem compressLoop_decode (src : List Nat) :
    ∀ (fuel i litStart : Nat) (table : Nat → Option Nat),
      litStart ≤ i → i ≤ src.length →
      decodeSafe src.length (compressLoop src fuel i litStart table) .op
          (src.take litStart)
        = (0, src) := by
  intro fuel
  induction fuel with
  | zero =>
    intro i litStart table h1 h2
    rw [compressLoop]
    exact decode_terminal src litStart (le_trans h1 h2)
  | succ fuel ih =>
    intro i litStart table h1 h2
    rw [compressLoop]
    by_cases hterm : src.length < i + 3
    · rw [if_pos hterm]
      exact decode_terminal src litStart (le_trans h1 h2)
    · rw [if_neg hterm]
      have hi3 : i + 3 ≤ src.length := by omega
      cases htab : table (srcHash src i) with
      | none =>
        exact ih (i + 1) litStart _ (by omega) (by omega)
      | some j =>
        dsimp only
        by_cases hj : i ≤ j ∨ MAX_DIST < i - j
        · rw [if_pos hj]
          exact ih (i + 1) litStart _ (by omega) (by omega)
        · rw [if_neg hj]
          push_neg at hj
          obtain ⟨hji, hjw⟩ := hj
          have hl_len : matchLenAt src j i ≤ src.length - i := by
            have := commonLen_le_length_right (src.drop j) (src.drop i) 131
            simpa [matchLenAt] using this
          have hl_fuel : matchLenAt src j i ≤ 131 :=
            commonLen_le_fuel 131 (src.drop j) (src.drop i)
          have hflush :
              decodeSafe src.length
                  (emitLits (i - litStart) (extract src litStart i) ++
                    (emitM2 (i - j) (matchLenAt src j i) ++
                      compressLoop src fuel (i + matchLenAt src j i)
                        (i + matchLenAt src j i) (updTable table (srcHash src i) i)))
                  .op (src.take litStart)
                = decodeSafe src.length
                    (emitM2 (i - j) (matchLenAt src j i) ++
                      compressLoop src fuel (i + matchLenAt src j i)
                        (i + matchLenAt src j i) (updTable table (srcHash src i) i))
                    .op (src.take i) := by
            rw [decode_emitLits src.length (i - litStart) (extract src litStart i) _
                (src.take litStart)
                (by rw [extract_length]; omega)
                (by
                  have h3 : (src.take litStart).length = litStart := by simp; omega
                  have h4 : (extract src litStart i).length = i - litStart := by
                    rw [extract_length]; omega
                  omega)]
            rw [take_append_extract src h1]
          have hflush3 :
              decodeSafe src.length
                  (emitLits (i - litStart) (extract src litStart i) ++
                    (emitM3 (i - j) (matchLenAt src j i) ++
                      compressLoop src fuel (i + matchLenAt src j i)
                        (i + matchLenAt src j i) (updTable table (srcHash src i) i)))
                  .op (src.take litStart)
                = decodeSafe src.length
                    (emitM3 (i - j) (matchLenAt src j i) ++
                      compressLoop src fuel (i + matchLenAt src j i)
                        (i + matchLenAt src j i) (updTable table (srcHash src i) i))
                    .op (src.take i) := by
            rw [decode_emitLits src.length (i - litStart) (extract src litStart i) _
                (src.take litStart)
                (by rw [extract_length]; omega)
                (by
                  have h3 : (src.take litStart).length = litStart := by simp; omega
                  have h4 : (extract src litStart i).length = i - litStart := by
                    rw [extract_length]; omega
                  omega)]
            rw [take_append_extract src h1]
          have htakei : (src.take i).length = i := by simp; omega
          have hcopy : ∀ hl3 : 3 ≤ matchLenAt src j i,
              copyMatch (src.take i) (i - j) (matchLenAt src j i) =
                src.take (i + matchLenAt src j i) := by
            intro hl3
            apply copyMatch_take src (i - j) (matchLenAt src j i) i
              (by omega) (by omega) (by omega)
            intro k hk
            have hpt := commonLen_getD 131 (src.drop j) (src.drop i) k
              (by simpa [matchLenAt] using hk) 0
            rw [getD_drop, getD_drop] at hpt
            have e : i - (i - j) + k = j + k := by omega
            rw [e]
            exact hpt
          by_cases hm2 : 3 ≤ matchLenAt src j i ∧ matchLenAt src j i ≤ 10 ∧ i - j ≤ 255
          · rw [if_pos hm2, hflush]
            rw [decode_emitM2 src.length (i - j) (matchLenAt src j i) _ (src.take i)
                hm2.1 hm2.2.1 (by omega) (by omega) (by omega)]
            rw [hcopy hm2.1]
            exact ih (i + matchLenAt src j i) (i + matchLenAt src j i) _
              (le_refl _) (by omega)
          · rw [if_neg hm2]
            by_cases hm3 : 4 ≤ matchLenAt src j i
            · rw [if_pos hm3, hflush3]
              have hw : i - j < 65536 := by
                have : MAX_DIST = 49151 := rfl
                omega
              rw [decode_emitM3 src.length (i - j) (matchLenAt src j i) _ (src.take i)
                  hm3 hl_fuel (by omega) hw (by omega) (by omega)]
              rw [hcopy (by omega)]
              exact ih (i + matchLenAt src j i) (i + matchLenAt src j i) _
                (le_refl _) (by omega)
            · rw [if_neg hm3]
              exact ih (i + 1) litStart _ (by omega) (by omega)

/-! ### Worst-case length bound for the compressor's output -/

theorem emitLits_length :
    ∀ (f : Nat) (bs : List Nat),
      (emitLits f bs).length ≤ bs.length + (bs.length + 62) / 63 := by
  intro f
  induction f with
  | zero => intro bs; cases bs <;> simp [emitLits]
  | succ f ih =>
    intro bs
    cases bs with
    | nil => simp [emitLits]
    | cons b t =>
      have hrec := ih ((b :: t).drop 63)
      rw [emitLits]
      simp only [List.length_cons, List.length_append, List.length_take,
        List.length_drop] at hrec ⊢
      omega

theorem compressLoop_length (src : List Nat) :
    ∀ (fuel i litStart : Nat) (table : Nat → Option Nat),
      litStart ≤ i → i ≤ src.length →
      (compressLoop src fuel i litStart table).length ≤
        (src.length - litStart) + (src.length - litStart) / 63 + 2 := by
  intro fuel
  induction fuel with
  | zero =>
    intro i litStart table h1 h2
    rw [compressLoop]
    have he := emitLits_length (src.length - litStart) (extract src litStart src.length)
    have hx : (extract src litStart src.length).length = src.length - litStart := by
      rw [extract_length]
      omega
    rw [hx] at he
    simp only [List.length_append, List.length_cons, List.length_nil]
    omega
  | succ fuel ih =>
    intro i litStart table h1 h2
    rw [compressLoop]
    by_cases hterm : src.length < i + 3
    · rw [if_pos hterm]
      have he := emitLits_length (src.length - litStart) (extract src litStart src.length)
      have hx : (extract src litStart src.length).length = src.length - litStart := by
        rw [extract_length]
        omega
      rw [hx] at he
      simp only [List.length_append, List.length_cons, List.length_nil]
      omega
    · rw [if_neg hterm]
      cases htab : table (srcHash src i) with
      | none => exact ih (i + 1) litStart _ (by omega) (by omega)
      | some j =>
        dsimp only
        by_cases hj : i ≤ j ∨ MAX_DIST < i - j
        · rw [if_pos hj]
          exact ih (i + 1) litStart _ (by omega) (by omega)
        · rw [if_neg hj]
          push_neg at hj
          have hl_len : matchLenAt src j i ≤ src.length - i := by
            have := commonLen_le_length_right (src.drop j) (src.drop i) 131
            simpa [matchLenAt] using this
          have he := emitLits_length (i - litStart) (extract src litStart i)
          have hx : (extract src litStart i).length = i - litStart := by
            rw [extract_length]
            omega
          rw [hx] at he
          by_cases hm2 : 3 ≤ matchLenAt src j i ∧ matchLenAt src j i ≤ 10 ∧ i - j ≤ 255
          · rw [if_pos hm2]
            have hrec := ih (i + matchLenAt src j i) (i + matchLenAt src j i)
              (updTable table (srcHash src i) i) (le_refl _) (by omega)
            simp only [List.length_append, emitM2, List.length_cons, List.length_nil]
            omega
          · rw [if_neg hm2]
            by_cases hm3 : 4 ≤ matchLenAt src j i
            · rw [if_pos hm3]
              have hrec := ih (i + matchLenAt src j i) (i + matchLenAt src j i)
                (updTable table (srcHash src i) i) (le_refl _) (by omega)
              simp only [List.length_append, emitM3, List.length_cons, List.length_nil]
              omega
            · rw [if_neg hm3]
              exact ih (i + 1) litStart _ (by omega) (by omega)

theorem lzo1x_1_compress_length (src : List Nat) :
    (lzo1x_1_compress src).2.length ≤
      src.length + src.length / 16 + 64 + 3 := by
  have h := compressLoop_length src (src.length + 1) 0 0 (fun _ => none)
    (le_refl 0) (Nat.zero_le _)
  have hdiv : src.length / 63 ≤ src.length / 16 :=
    Nat.div_le_div_left (by norm_num) (by norm_num)
  simp only [lzo1x_1_compress] at h ⊢
  omega

/-! ### The safe decoder's success output never exceeds the declared length -/

theorem pair_code_ne_zero {c : Int} {o v : List Nat} (hc : c ≠ 0)
    (h : (c, o) = ((0 : Int), v)) : False :=
  hc (congrArg Prod.fst h)

theorem decode_ok_length (dstLen : Nat) :
    ∀ (input : List Nat) (st : DState) (out v : List Nat),
      out.length + stRoom st ≤ dstLen →
      decodeSafe dstLen input st out = (0, v) →
      v.length ≤ dstLen := by
  intro input
  induction input with
  | nil =>
    intro st out v hroom h
    cases st <;> exact (pair_code_ne_zero (by decide) h).elim
  | cons b rest ih =>
    intro st out v hroom h
    cases st with
    | op =>
      rw [decodeSafe] at h
      by_cases hb0 : b = 0
      · rw [if_pos hb0] at h
        by_cases hr : rest = []
        · rw [if_pos hr] at h
          have hv : out = v := congrArg Prod.snd h
          subst hv
          simp only [stRoom] at hroom
          omega
        · rw [if_neg hr] at h
          exact (pair_code_ne_zero (by decide) h).elim
      · rw [if_neg hb0] at h
        by_cases hb63 : b ≤ 63
        · rw [if_pos hb63] at h
          by_cases hov : dstLen < out.length + b
          · rw [if_pos hov] at h
            exact (pair_code_ne_zero (by decide) h).elim
          · rw [if_neg hov] at h
            exact ih (.lit b) out v (by simp only [stRoom]; omega) h
        · rw [if_neg hb63] at h
          by_cases hb127 : b ≤ 127
          · rw [if_pos hb127] at h
            by_cases hov : dstLen < out.length + (b - 64 + 3)
            · rw [if_pos hov] at h
              exact (pair_code_ne_zero (by decide) h).elim
            · rw [if_neg hov] at h
              exact ih (.m2 (b - 64 + 3)) out v (by simp only [stRoom]; omega) h
          · rw [if_neg hb127] at h
            by_cases hov : dstLen < out.length + (b - 128 + 4)
            · rw [if_pos hov] at h
              exact (pair_code_ne_zero (by decide) h).elim
            · rw [if_neg hov] at h
              exact ih (.m3lo (b - 128 + 4)) out v (by simp only [stRoom]; omega) h
    | lit n =>
      rw [decodeSafe] at h
      simp only [stRoom] at hroom
      by_cases hn : n ≤ 1
      · rw [if_pos hn] at h
        exact ih .op (out ++ [b]) v
          (by simp only [stRoom, List.length_append, List.length_cons, List.length_nil]; omega) h
      · rw [if_neg hn] at h
        exact ih (.lit (n - 1)) (out ++ [b]) v
          (by simp only [stRoom, List.length_append, List.length_cons, List.length_nil]; omega) h
    | m2 l =>
      rw [decodeSafe] at h
      simp only [stRoom] at hroom
      by_cases hlb : b = 0 ∨ out.length < b
      · rw [if_pos hlb] at h
        exact (pair_code_ne_zero (by decide) h).elim
      · rw [if_neg hlb] at h
        exact ih .op (copyMatch out b l) v
          (by simp only [stRoom, copyMatch_length]; omega) h
    | m3lo l =>
      rw [decodeSafe] at h
      simp only [stRoom] at hroom
      exact ih (.m3hi l b) out v (by simp only [stRoom]; omega) h
    | m3hi l lo =>
      rw [decodeSafe] at h
      simp only [stRoom] at hroom
      by_cases hlb : lo + 256 * b = 0 ∨ out.length < lo + 256 * b
      · rw [if_pos hlb] at h
        exact (pair_code_ne_zero (by decide) h).elim
      · rw [if_neg hlb] at h
        exact ih .op (copyMatch out (lo + 256 * b) l) v
          (by simp only [stRoom, copyMatch_length]; omega) h

/-! ### Truncating an accepted stream can only yield the two input-exhaustion errors -/

theorem decode_prefix (dstLen : Nat) :
    ∀ (input : List Nat) (st : DState) (out v : List Nat),
      decodeSafe dstLen input st out = (0, v) →
      ∀ (P t : List Nat), P ++ t = input → P ≠ input →
      (decodeSafe dstLen P st out).1 = -7 ∨ (decodeSafe dstLen P st out).1 = -4 := by
  intro input
  induction input with
  | nil =>
    intro st out v h P t hPt hPne
    have hP : P = [] := by
      cases P with
      | nil => rfl
      | cons p P2 => simp at hPt
    exact absurd hP hPne
  | cons b rest ih =>
    intro st out v h P t hPt hPne
    cases P with
    | nil =>
      cases st with
      | op => left; simp [decodeSafe]
      | lit n => right; simp [decodeSafe]
      | m2 l => right; simp [decodeSafe]
      | m3lo l => right; simp [decodeSafe]
      | m3hi l lo => right; simp [decodeSafe]
    | cons p P2 =>
      have hpb : p = b ∧ P2 ++ t = rest := by
        rw [List.cons_append] at hPt
        exact ⟨(List.cons.injEq p (P2 ++ t) b rest).mp hPt |>.1,
               (List.cons.injEq p (P2 ++ t) b rest).mp hPt |>.2⟩
      obtain ⟨hpb1, hpb2⟩ := hpb
      subst hpb1
      have hne2 : P2 ≠ rest := by
        intro hEq
        apply hPne
        rw [hEq]
      cases st with
      | op =>
        rw [decodeSafe] at h ⊢
        by_cases hb0 : p = 0
        · rw [if_pos hb0] at h ⊢
          by_cases hr : rest = []
          · exfalso
            apply hne2
            rw [hr]
            cases P2 with
            | nil => rfl
            | cons q Q => rw [hr] at hpb2; simp at hpb2
          · rw [if_neg hr] at h
            exact (pair_code_ne_zero (by decide) h).elim
        · rw [if_neg hb0] at h ⊢
          by_cases hb63 : p ≤ 63
          · rw [if_pos hb63] at h ⊢
            by_cases hov : dstLen < out.length + p
            · rw [if_pos hov] at h
              exact (pair_code_ne_zero (by decide) h).elim
            · rw [if_neg hov] at h ⊢
              exact ih (.lit p) out v h P2 t hpb2 hne2
          · rw [if_neg hb63] at h ⊢
            by_cases hb127 : p ≤ 127
            · rw [if_pos hb127] at h ⊢
              by_cases hov : dstLen < out.length + (p - 64 + 3)
              · rw [if_pos hov] at h
                exact (pair_code_ne_zero (by decide) h).elim
              · rw [if_neg hov] at h ⊢
                exact ih (.m2 (p - 64 + 3)) out v h P2 t hpb2 hne2
            · rw [if_neg hb127] at h ⊢
              by_cases hov : dstLen < out.length + (p - 128 + 4)
              · rw [if_pos hov] at h
                exact (pair_code_ne_zero (by decide) h).elim
              · rw [if_neg hov] at h ⊢
                exact ih (.m3lo (p - 128 + 4)) out v h P2 t hpb2 hne2
      | lit n =>
        rw [decodeSafe] at h ⊢
        by_cases hn : n ≤ 1
        · rw [if_pos hn] at h ⊢
          exact ih .op (out ++ [p]) v h P2 t hpb2 hne2
        · rw [if_neg hn] at h ⊢
          exact ih (.lit (n - 1)) (out ++ [p]) v h P2 t hpb2 hne2
      | m2 l =>
        rw [decodeSafe] at h ⊢
        by_cases hlb : p = 0 ∨ out.length < p
        · rw [if_pos hlb] at h
          exact (pair_code_ne_zero (by decide) h).elim
        · rw [if_neg hlb] at h ⊢
          exact ih .op (copyMatch out p l) v h P2 t hpb2 hne2
      | m3lo l =>
        rw [decodeSafe] at h ⊢
        exact ih (.m3hi l p) out v h P2 t hpb2 hne2
      | m3hi l lo =>
        rw [decodeSafe] at h ⊢
        by_cases hlb : lo + 256 * p = 0 ∨ out.length < lo + 256 * p
        · rw [if_pos hlb] at h
          exact (pair_code_ne_zero (by decide) h).elim
        · rw [if_neg hlb] at h ⊢
          exact ih .op (copyMatch out (lo + 256 * p) l) v h P2 t hpb2 hne2

/-! ### On inputs the safe decoder accepts, the unchecked decoder agrees -/

theorem decodeFast_of_safe (dstLen : Nat) :
    ∀ (input : List Nat) (st : DState) (out v : List Nat),
      decodeSafe dstLen input st out = (0, v) →
      decodeFast dstLen input st out = (0, v) := by
  intro input
  induction input with
  | nil =>
    intro st out v h
    cases st <;> exact (pair_code_ne_zero (by decide) h).elim
  | cons b rest ih =>
    intro st out v h
    cases st with
    | op =>
      rw [decodeSafe] at h
      rw [decodeFast]
      by_cases hb0 : b = 0
      · rw [if_pos hb0] at h ⊢
        by_cases hr : rest = []
        · rw [if_pos hr] at h ⊢
          exact h
        · rw [if_neg hr] at h
          exact (pair_code_ne_zero (by decide) h).elim
      · rw [if_neg hb0] at h ⊢
        by_cases hb63 : b ≤ 63
        · rw [if_pos hb63] at h ⊢
          by_cases hov : dstLen < out.length + b
          · rw [if_pos hov] at h
            exact (pair_code_ne_zero (by decide) h).elim
          · rw [if_neg hov] at h ⊢
            exact ih (.lit b) out v h
        · rw [if_neg hb63] at h ⊢
          by_cases hb127 : b ≤ 127
          · rw [if_pos hb127] at h ⊢
            by_cases hov : dstLen < out.length + (b - 64 + 3)
            · rw [if_pos hov] at h
              exact (pair_code_ne_zero (by decide) h).elim
            · rw [if_neg hov] at h ⊢
              exact ih (.m2 (b - 64 + 3)) out v h
          · rw [if_neg hb127] at h ⊢
            by_cases hov : dstLen < out.length + (b - 128 + 4)
            · rw [if_pos hov] at h
              exact (pair_code_ne_zero (by decide) h).elim
            · rw [if_neg hov] at h ⊢
              exact ih (.m3lo (b - 128 + 4)) out v h
    | lit n =>
      rw [decodeSafe] at h
      rw [decodeFast]
      by_cases hn : n ≤ 1
      · rw [if_pos hn] at h ⊢
        exact ih .op (out ++ [b]) v h
      · rw [if_neg hn] at h ⊢
        exact ih (.lit (n - 1)) (out ++ [b]) v h
    | m2 l =>
      rw [decodeSafe] at h
      rw [decodeFast]
      by_cases hlb : b = 0 ∨ out.length < b
      · rw [if_pos hlb] at h
        exact (pair_code_ne_zero (by decide) h).elim
      · rw [if_neg hlb] at h ⊢
        exact ih .op (copyMatch out b l) v h
    | m3lo l =>
      rw [decodeSafe] at h
      rw [decodeFast]
      exact ih (.m3hi l b) out v h
    | m3hi l lo =>
      rw [decodeSafe] at h
      rw [decodeFast]
      by_cases hlb : lo + 256 * b = 0 ∨ out.length < lo + 256 * b
      · rw [if_pos hlb] at h
        exact (pair_code_ne_zero (by decide) h).elim
      · rw [if_neg hlb] at h ⊢
        exact ih .op (copyMatch out (lo + 256 * b) l) v h

/-! ### Evaluation lemmas for the error-code mapping -/

theorem lzo_err_code_to_result_ok {T : Type} {c : Int} {x y : T}
    (h : lzo_err_code_to_result c x = .ok y) : c = 0 ∧ x = y := by
  by_cases h0 : c = 0
  · refine ⟨h0, ?_⟩
    rw [lzo_err_code_to_result, if_pos h0] at h
    exact (Except.ok.injEq x y).mp h
  · exfalso
    rw [lzo_err_code_to_result, if_neg h0] at h
    by_cases h1 : c = -1
    · rw [if_pos h1] at h; cases h
    rw [if_neg h1] at h
    by_cases h2 : c = -2
    · rw [if_pos h2] at h; cases h
    rw [if_neg h2] at h
    by_cases h3 : c = -3
    · rw [if_pos h3] at h; cases h
    rw [if_neg h3] at h
    by_cases h4 : c = -4
    · rw [if_pos h4] at h; cases h
    rw [if_neg h4] at h
    by_cases h5 : c = -5
    · rw [if_pos h5] at h; cases h
    rw [if_neg h5] at h
    by_cases h6 : c = -6
    · rw [if_pos h6] at h; cases h
    rw [if_neg h6] at h
    by_cases h7 : c = -7
    · rw [if_pos h7] at h; cases h
    rw [if_neg h7] at h
    by_cases h8 : c = -8
    · rw [if_pos h8] at h; cases h
    rw [if_neg h8] at h
    by_cases h9 : c = -9
    · rw [if_pos h9] at h; cases h
    rw [if_neg h9] at h
    by_cases h10 : c = -10
    · rw [if_pos h10] at h; cases h
    rw [if_neg h10] at h
    by_cases h11 : c = -11
    · rw [if_pos h11] at h; cases h
    rw [if_neg h11] at h
    by_cases h12 : c = -12
    · rw [if_pos h12] at h; cases h
    rw [if_neg h12] at h
    by_cases h13 : c = -99
    · rw [if_pos h13] at h; cases h
    rw [if_neg h13] at h
    cases h

theorem err_map_zero {T : Type} (x : T) :
    lzo_err_code_to_result 0 x = .ok x := rfl

theorem err_map_m4 {T : Type} (x : T) :
    lzo_err_code_to_result (-4) x = .error Error.InputOverrun := rfl

theorem err_map_m7 {T : Type} (x : T) :
    lzo_err_code_to_result (-7) x = .error Error.EOFNotFound := rfl

/-! ### The claims -/

/-- C5: compressing the same buffer with any two LZO instances — in
particular two freshly constructed ones, whatever the initial contents of
their scratch working memory — yields byte-identical compressed output,
because each `compress` call starts from a logically empty scratch
table. -/
theorem c5_compress_deterministic (a b : LZO) (src : List Nat) :
    a.compress src = b.compress src := rfl

set_option maxRecDepth 8000 in
/-- C6: the checksum of 1024 bytes 0x09 with seed 1 is exactly 439886849,
and the public `adler32` is the underlying checksum seeded with the default
initial value 1. -/
theorem c6_adler32_value :
    adler32 (List.replicate 1024 9) = 439886849 ∧
    ∀ buf : List Nat, adler32 buf = lzo_adler32 1 buf :=
  ⟨by decide, fun _ => rfl⟩

/-- C7: contrary to the claim, the numeric error-code mapping is neither
injective nor exhaustive over the taxonomy: `lzo_err_code_to_result` sends
code -11 to `InvalidArgument` (colliding with -10), and no numeric code at
all produces `InvalidAlignment`.  This is a bug in the binding: upstream
LZO assigns -11 to the alignment error, and the binding's own `Error` enum
declares an `InvalidAlignment` variant that is consequently unreachable. -/
theorem c7_error_mapping_bug :
    lzo_err_code_to_result (-11) (0 : Nat) = .error Error.InvalidArgument ∧
    ∀ code : Int, lzo_err_code_to_result code (0 : Nat) ≠ .error Error.InvalidAlignment := by
  refine ⟨rfl, ?_⟩
  intro code
  rw [lzo_err_code_to_result]
  by_cases h0 : code = 0
  · rw [if_pos h0]; intro hh; cases hh
  rw [if_neg h0]
  by_cases h1 : code = -1
  · rw [if_pos h1]; intro hh; cases hh
  rw [if_neg h1]
  by_cases h2 : code = -2
  · rw [if_pos h2]; intro hh; cases hh
  rw [if_neg h2]
  by_cases h3 : code = -3
  · rw [if_pos h3]; intro hh; cases hh
  rw [if_neg h3]
  by_cases h4 : code = -4
  · rw [if_pos h4]; intro hh; cases hh
  rw [if_neg h4]
  by_cases h5 : code = -5
  · rw [if_pos h5]; intro hh; cases hh
  rw [if_neg h5]
  by_cases h6 : code = -6
  · rw [if_pos h6]; intro hh; cases hh
  rw [if_neg h6]
  by_cases h7 : code = -7
  · rw [if_pos h7]; intro hh; cases hh
  rw [if_neg h7]
  by_cases h8 : code = -8
  · rw [if_pos h8]; intro hh; cases hh
  rw [if_neg h8]
  by_cases h9 : code = -9
  · rw [if_pos h9]; intro hh; cases hh
  rw [if_neg h9]
  by_cases h10 : code = -10
  · rw [if_pos h10]; intro hh; cases hh
  rw [if_neg h10]
  by_cases h11 : code = -11
  · rw [if_pos h11]; intro hh; cases hh
  rw [if_neg h11]
  by_cases h12 : code = -12
  · rw [if_pos h12]; intro hh; cases hh
  rw [if_neg h12]
  by_cases h13 : code = -99
  · rw [if_pos h13]; intro hh; cases hh
  rw [if_neg h13]
  intro hh; cases hh

/-- C10: the checksum of the empty buffer is exactly 1, the fixed internal
seed: `adler32` takes no seed parameter and always starts the accumulators
from the constant initial value 1. -/
theorem c10_adler32_empty :
    adler32 [] = 1 ∧
    ∀ buf : List Nat, adler32 buf = lzo_adler32 1 buf :=
  ⟨rfl, fun _ => rfl⟩

/-- C1: for every byte buffer, decompressing the result of compressing it
with the safe decompressor and declared length equal to the buffer's length
returns exactly the original buffer. -/
theorem c1_roundtrip (lzo : LZO) (src out : List Nat)
    (h : lzo.compress src = .ok out) :
    lzo.decompress_safe out src.length = .ok src := by
  rw [LZO.compress] at h
  obtain ⟨-, hout⟩ := lzo_err_code_to_result_ok h
  have hcore : decodeSafe src.length out .op [] = (0, src) := by
    rw [← hout, lzo1x_1_compress]
    have hmain := compressLoop_decode src (src.length + 1) 0 0 (fun _ => none)
      (le_refl 0) (Nat.zero_le _)
    simpa using hmain
  rw [LZO.decompress_safe, lzo1x_decompress_safe, hcore]
  show lzo_err_code_to_result 0 (decompressFixup 0 src src.length) = _
  have hcnot : ¬(((0 : Int) = 0) ∧
      (src ++ List.replicate (src.length - src.length) 0).length < src.length) := by
    rintro ⟨-, hlt⟩
    simp only [List.length_append, List.length_replicate] at hlt
    omega
  rw [decompressFixup, if_neg hcnot]
  simp only [Nat.sub_self, List.replicate_zero, List.append_nil]
  exact err_map_zero src

/-- Witness for C1 at a concrete repetitive buffer: one literal, one short
match, the end marker. -/
theorem c1_roundtrip_witness :
    LZO.decompress_safe ⟨[]⟩ [1, 7, 66, 1, 0] 6 = .ok [7, 7, 7, 7, 7, 7] :=
  c1_roundtrip ⟨[]⟩ [7, 7, 7, 7, 7, 7] [1, 7, 66, 1, 0] rfl

/-- C2: whenever `compress` succeeds, the compressed output is no longer
than the worst-case expansion bound len + len/16 + 64 + 3. -/
theorem c2_compress_bound (lzo : LZO) (src out : List Nat)
    (h : lzo.compress src = .ok out) :
    out.length ≤ src.length + src.length / 16 + 64 + 3 := by
  rw [LZO.compress] at h
  obtain ⟨-, hout⟩ := lzo_err_code_to_result_ok h
  rw [← hout]
  exact lzo1x_1_compress_length src

/-- Witness for C2 at the empty buffer, whose compressed form is the lone
end marker. -/
theorem c2_compress_bound_witness :
    ([0] : List Nat).length ≤
      ([] : List Nat).length + ([] : List Nat).length / 16 + 64 + 3 :=
  c2_compress_bound ⟨[]⟩ [] [0] rfl

/-- C3: on any compressed input and declared length accepted by both
decompressors, `decompress` and `decompress_safe` return identical output
buffers. -/
theorem c3_decompress_agree (lzo : LZO) (src : List Nat) (dstLen : Nat)
    (v w : List Nat) (hs : lzo.decompress_safe src dstLen = .ok v)
    (hf : lzo.decompress src dstLen = .ok w) : v = w := by
  rw [LZO.decompress_safe] at hs
  obtain ⟨hc, hv⟩ := lzo_err_code_to_result_ok hs
  rw [LZO.decompress] at hf
  obtain ⟨-, hw⟩ := lzo_err_code_to_result_ok hf
  have hpair : decodeSafe dstLen src .op [] =
      ((0 : Int), (lzo1x_decompress_safe src dstLen).2) := by
    rw [← hc, lzo1x_decompress_safe]
  have heq : lzo1x_decompress src dstLen = lzo1x_decompress_safe src dstLen := by
    rw [lzo1x_decompress, lzo1x_decompress_safe, hpair]
    exact decodeFast_of_safe dstLen src .op [] _ hpair
  rw [← hv, ← hw, heq]

/-- Witness for C3 at the one-byte stream holding only the end marker, with
declared length 3. -/
theorem c3_decompress_agree_witness :
    ([0, 0, 0] : List Nat) = [0, 0, 0] :=
  c3_decompress_agree ⟨[]⟩ [0] 3 [0, 0, 0] [0, 0, 0] rfl rfl

/-- C4: truncating a valid compressed stream by any nonzero number of
trailing bytes makes the safe decompressor fail with `InputOverrun` or
`EOFNotFound`; it never silently succeeds. -/
theorem c4_truncated_errors (lzo : LZO) (src out : List Nat) (n : Nat)
    (h : lzo.compress src = .ok out) (hn1 : 1 ≤ n) (hn2 : n < out.length) :
    lzo.decompress_safe (out.take (out.length - n)) src.length =
        .error .InputOverrun ∨
    lzo.decompress_safe (out.take (out.length - n)) src.length =
        .error .EOFNotFound := by
  rw [LZO.compress] at h
  obtain ⟨-, hout⟩ := lzo_err_code_to_result_ok h
  have hcore : decodeSafe src.length out .op [] = (0, src) := by
    rw [← hout, lzo1x_1_compress]
    have hmain := compressLoop_decode src (src.length + 1) 0 0 (fun _ => none)
      (le_refl 0) (Nat.zero_le _)
    simpa using hmain
  have hsplit : out.take (out.length - n) ++ out.drop (out.length - n) = out :=
    List.take_append_drop _ _
  have hne : out.take (out.length - n) ≠ out := by
    intro hEq
    have hlen := congrArg List.length hEq
    simp only [List.length_take] at hlen
    omega
  have hpre := decode_prefix src.length out .op [] src hcore
    (out.take (out.length - n)) (out.drop (out.length - n)) hsplit hne
  rw [LZO.decompress_safe, lzo1x_decompress_safe]
  cases hpre with
  | inl h7 =>
    right
    rw [h7]
    exact err_map_m7 _
  | inr h4 =>
    left
    rw [h4]
    exact err_map_m4 _

/-- Witness for C4: the round-trip witness's stream truncated by one byte
is rejected. -/
theorem c4_truncated_errors_witness :
    LZO.decompress_safe ⟨[]⟩ [1, 7, 66, 1] 6 = .error .InputOverrun ∨
    LZO.decompress_safe ⟨[]⟩ [1, 7, 66, 1] 6 = .error .EOFNotFound :=
  c4_truncated_errors ⟨[]⟩ [7, 7, 7, 7, 7, 7] [1, 7, 66, 1, 0] 1 rfl
    (by decide) (by decide)

/-- C8: when the unchecked decoder reports success while producing fewer
than `dstLen` bytes, `decompress` returns `Ok` with a buffer padded to
exactly `dstLen` (the remainder zero-filled) instead of surfacing an
`EOFNotFound`-class error. -/
theorem c8_decompress_pads_short_output (lzo : LZO) (src : List Nat)
    (dstLen : Nat) (out : List Nat)
    (h : lzo1x_decompress src dstLen = (0, out))
    (hshort : out.length < dstLen) :
    lzo.decompress src dstLen =
        .ok (out ++ List.replicate (dstLen - out.length) 0) ∧
    (out ++ List.replicate (dstLen - out.length) 0).length = dstLen := by
  have hlen : (out ++ List.replicate (dstLen - out.length) 0).length = dstLen := by
    simp only [List.length_append, List.length_replicate]
    omega
  refine ⟨?_, hlen⟩
  rw [LZO.decompress, h]
  show lzo_err_code_to_result 0 (decompressFixup 0 out dstLen) = _
  have hcnot : ¬(((0 : Int) = 0) ∧
      (out ++ List.replicate (dstLen - out.length) 0).length < out.length) := by
    rintro ⟨-, hlt⟩
    simp only [List.length_append, List.length_replicate] at hlt
    omega
  rw [decompressFixup, if_neg hcnot]
  exact err_map_zero _

/-- Witness for C8: a stream holding only the end marker decodes to zero
bytes, yet `decompress` with declared length 3 returns three zero bytes. -/
theorem c8_decompress_pads_witness :
    LZO.decompress ⟨[]⟩ [0] 3 = .ok [0, 0, 0] ∧
    ([0, 0, 0] : List Nat).length = 3 :=
  c8_decompress_pads_short_output ⟨[]⟩ [0] 3 [] rfl (by decide)

/-- C9: whenever `decompress_safe` returns `Ok(v)`, the buffer `v` has
exactly the declared destination length, even when the stream decodes to
fewer bytes (the remainder stays zero-filled). -/
theorem c9_decompress_safe_length (lzo : LZO) (src : List Nat) (dstLen : Nat)
    (v : List Nat) (h : lzo.decompress_safe src dstLen = .ok v) :
    v.length = dstLen := by
  rw [LZO.decompress_safe] at h
  obtain ⟨hc, hv⟩ := lzo_err_code_to_result_ok h
  have hpair : decodeSafe dstLen src .op [] =
      ((0 : Int), (lzo1x_decompress_safe src dstLen).2) := by
    rw [← hc, lzo1x_decompress_safe]
  have hle := decode_ok_length dstLen src .op []
    (lzo1x_decompress_safe src dstLen).2 (by simp [stRoom]) hpair
  have hcnot : ¬(((0 : Int) = 0) ∧
      ((lzo1x_decompress_safe src dstLen).2 ++
        List.replicate (dstLen - (lzo1x_decompress_safe src dstLen).2.length) 0).length <
        (lzo1x_decompress_safe src dstLen).2.length) := by
    rintro ⟨-, hlt⟩
    simp only [List.length_append, List.length_replicate] at hlt
    omega
  rw [← hv, hc, decompressFixup, if_neg hcnot]
  simp only [List.length_append, List.length_replicate]
  omega

/-- Witness for C9: declared length 3 with a stream that decodes to zero
bytes still yields a success value of length exactly 3. -/
theorem c9_decompress_safe_length_witness :
    ([0, 0, 0] : List Nat).length = 3 :=
  c9_decompress_safe_length ⟨[]⟩ [0] 3 [0, 0, 0] rfl

end MiniLZO
